import Mathlib

/-!
Verification development for the dcorejs cryptographic identity and
confidential-messaging subsystem.

The definitions below are shallow embeddings of the TypeScript sources:

* `TransactionMemo` / `decryptedMessage` embed the multi-key decryption
  scanner of `model/account.ts` (class `TransactionMemo`).
* `normalize`, `generateKeys`, `derivePrivateKey`, `elGamalPublic`,
  `elGamalPrivate`, `privateKeyFromWif` embed the corresponding statics of
  `utils.ts` (class `Utils`).
* The memo cipher (`encryptWithChecksum` / `decryptWithChecksum`) and the
  Diffie-Hellman shared secret live in `crypt.ts` / `model/utils.ts`, which
  are not part of the sources at hand; they are modelled from the spec where
  noted.

External primitives (WIF decoding, SHA-512, the elliptic-curve library,
JavaScript string builtins) are either taken as function parameters or
modelled explicitly, with a comment at each definition.

Exceptions are embedded as `Option`/`Except` results: `none`/`.error` means
the TypeScript code throws at that point, `some`/`.ok` is a normal return.
-/

/-! ## Multi-key decryption scanner (model/account.ts, class TransactionMemo) -/

/-- Embedding of the `TransactionMemo` fields set by the constructor from a
raw transaction: `valid` is false when `m_transaction_encrypted_memo` is
absent.  The `from` and `to` fields are named `sender` and `toKey` because
`from` and `to` are reserved words here. -/
structure TransactionMemo where
  valid : Bool
  sender : String
  message : String
  nonce : String
  toKey : String

/-- Embedding of `TransactionMemo.decryptedMessage(privateKeys)`.

The scanner is parametrised by the external primitives it calls:
`pubOf` embeds `Utils.publicKeyFromString` (its exception is `none`, and it
is called outside any try/catch, so `none` propagates as `none` overall);
`wifOf` embeds `Utils.privateKeyFromWif` inside the outer try (its throw is
absorbed); `dec` embeds `CryptoUtils.decryptWithChecksum(...).toString()`
inside the inner try (its throw is re-raised as `account_keys_incorrect`
and then absorbed by the outer catch).  The `forEach` over `privateKeys`
with the mutable `decrypted` variable becomes a `foldl`. -/
def decryptedMessage {π κ : Type} (pubOf : String → Option κ)
    (wifOf : String → Option π) (dec : String → π → κ → String → Option String)
    (memo : TransactionMemo) (privateKeys : List String) : Option String :=
  if !memo.valid then
    some ""
  else
    match pubOf memo.toKey with
    | none => none
    | some pubKey =>
      some (privateKeys.foldl (fun decrypted pk =>
        match wifOf pk with
        | none => decrypted
        | some pKey =>
          match dec memo.message pKey pubKey memo.nonce with
          | none => decrypted
          | some s => s) "")

/-- One candidate's attempt in the scan: decode the wire string, then try to
decrypt this memo's message with the decoded key.  `none` is a per-candidate
failure (either step threw). -/
def attemptDecrypt {π κ : Type} (wifOf : String → Option π)
    (dec : String → π → κ → String → Option String)
    (memo : TransactionMemo) (pubKey : κ) (pk : String) : Option String :=
  match wifOf pk with
  | none => none
  | some pKey => dec memo.message pKey pubKey memo.nonce

/-- The plaintexts of the successful candidates, in candidate-list order. -/
def scanSuccesses {π κ : Type} (wifOf : String → Option π)
    (dec : String → π → κ → String → Option String)
    (memo : TransactionMemo) (pubKey : κ) (privateKeys : List String) :
    List String :=
  privateKeys.filterMap (attemptDecrypt wifOf dec memo pubKey)

lemma foldStep_eq_attempt {π κ : Type} (wifOf : String → Option π)
    (dec : String → π → κ → String → Option String)
    (memo : TransactionMemo) (pubKey : κ) (decrypted pk : String) :
    (match wifOf pk with
      | none => decrypted
      | some pKey =>
        match dec memo.message pKey pubKey memo.nonce with
        | none => decrypted
        | some s => s)
      = (attemptDecrypt wifOf dec memo pubKey pk).getD decrypted := by
  cases h : wifOf pk with
  | none => simp only [attemptDecrypt, h, Option.getD_none]
  | some pKey =>
    cases hd : dec memo.message pKey pubKey memo.nonce <;>
      simp only [attemptDecrypt, h, hd, Option.getD_none, Option.getD_some]

lemma foldl_attempt_getLastD {π κ : Type} (wifOf : String → Option π)
    (dec : String → π → κ → String → Option String)
    (memo : TransactionMemo) (pubKey : κ) (keys : List String) (acc : String) :
    keys.foldl (fun decrypted pk =>
        match wifOf pk with
        | none => decrypted
        | some pKey =>
          match dec memo.message pKey pubKey memo.nonce with
          | none => decrypted
          | some s => s) acc
      = (scanSuccesses wifOf dec memo pubKey keys).getLastD acc := by
  induction keys generalizing acc with
  | nil => rfl
  | cons pk rest ih =>
    rw [List.foldl_cons, foldStep_eq_attempt, scanSuccesses, List.filterMap_cons]
    cases h : attemptDecrypt wifOf dec memo pubKey pk with
    | none =>
      simp only [h, Option.getD_none]
      exact ih acc
    | some s =>
      simp only [h, Option.getD_some, List.getLastD_cons]
      exact ih s

lemma decryptedMessage_eq_getLastD {π κ : Type} (pubOf : String → Option κ)
    (wifOf : String → Option π) (dec : String → π → κ → String → Option String)
    (memo : TransactionMemo) (pubKey : κ) (keys : List String)
    (hv : memo.valid = true) (hp : pubOf memo.toKey = some pubKey) :
    decryptedMessage pubOf wifOf dec memo keys
      = some ((scanSuccesses wifOf dec memo pubKey keys).getLastD "") := by
  unfold decryptedMessage
  simp only [hv, hp, Bool.not_true, Bool.false_eq_true, if_false]
  rw [foldl_attempt_getLastD]

lemma scanSuccesses_append_fail {π κ : Type} (wifOf : String → Option π)
    (dec : String → π → κ → String → Option String)
    (memo : TransactionMemo) (pubKey : κ) (keys : List String) (bad : String)
    (hbad : attemptDecrypt wifOf dec memo pubKey bad = none) :
    scanSuccesses wifOf dec memo pubKey (keys ++ [bad])
      = scanSuccesses wifOf dec memo pubKey keys := by
  unfold scanSuccesses
  rw [List.filterMap_append, List.filterMap_cons, hbad, List.filterMap_nil,
    List.append_nil]

lemma scanSuccesses_cons_fail {π κ : Type} (wifOf : String → Option π)
    (dec : String → π → κ → String → Option String)
    (memo : TransactionMemo) (pubKey : κ) (keys : List String) (bad : String)
    (hbad : attemptDecrypt wifOf dec memo pubKey bad = none) :
    scanSuccesses wifOf dec memo pubKey (bad :: keys)
      = scanSuccesses wifOf dec memo pubKey keys := by
  unfold scanSuccesses
  rw [List.filterMap_cons, hbad]

/-- C1: for every valid memo envelope and every ordered candidate list, the
scanner visits the entire list and, when at least two candidates decrypt
successfully, returns the plaintext of the last successful candidate in
list order (it keeps overwriting rather than stopping at the first
success). -/
theorem c1_scan_returns_last_success {π κ : Type} (pubOf : String → Option κ)
    (wifOf : String → Option π) (dec : String → π → κ → String → Option String)
    (memo : TransactionMemo) (pubKey : κ) (keys : List String)
    (hv : memo.valid = true) (hp : pubOf memo.toKey = some pubKey)
    (h2 : 2 ≤ (scanSuccesses wifOf dec memo pubKey keys).length) :
    decryptedMessage pubOf wifOf dec memo keys
      = some ((scanSuccesses wifOf dec memo pubKey keys).getLastD "") :=
  decryptedMessage_eq_getLastD pubOf wifOf dec memo pubKey keys hv hp

/-- Witness for C1: two of three candidates decrypt; the scanner returns the
second (last) plaintext, not the first. -/
theorem c1_scan_returns_last_success_witness :
    decryptedMessage (fun _ => some ()) (fun s => some s)
      (fun _ k _ _ =>
        if k = "k1" then some "one" else if k = "k2" then some "two" else none)
      ⟨true, "from", "msg", "nonce", "to"⟩ ["k0", "k1", "k2"] = some "two" := by
  have h := c1_scan_returns_last_success (fun _ => some ()) (fun s => some s)
      (fun _ k _ _ =>
        if k = "k1" then some "one" else if k = "k2" then some "two" else none)
      ⟨true, "from", "msg", "nonce", "to"⟩ () ["k0", "k1", "k2"]
      rfl rfl (by decide)
  rw [h]
  decide

/-- C4: with a valid envelope and a decodable recipient key, every
per-candidate failure is absorbed inside the scan: the scanner always
returns a string (no per-candidate error escapes), and a failing candidate
appended after the others does not erase an earlier success, nor does a
failing candidate anywhere change the result of the scan. -/
theorem c4_scan_absorbs_candidate_failures {π κ : Type}
    (pubOf : String → Option κ) (wifOf : String → Option π)
    (dec : String → π → κ → String → Option String)
    (memo : TransactionMemo) (pubKey : κ) (keys : List String) (bad : String)
    (hv : memo.valid = true) (hp : pubOf memo.toKey = some pubKey)
    (hbad : attemptDecrypt wifOf dec memo pubKey bad = none) :
    (decryptedMessage pubOf wifOf dec memo keys).isSome = true ∧
    decryptedMessage pubOf wifOf dec memo (keys ++ [bad])
      = decryptedMessage pubOf wifOf dec memo keys ∧
    decryptedMessage pubOf wifOf dec memo (bad :: keys)
      = decryptedMessage pubOf wifOf dec memo keys := by
  refine ⟨?_, ?_, ?_⟩
  · rw [decryptedMessage_eq_getLastD pubOf wifOf dec memo pubKey keys hv hp]
    rfl
  · rw [decryptedMessage_eq_getLastD pubOf wifOf dec memo pubKey keys hv hp,
      decryptedMessage_eq_getLastD pubOf wifOf dec memo pubKey (keys ++ [bad]) hv hp,
      scanSuccesses_append_fail wifOf dec memo pubKey keys bad hbad]
  · rw [decryptedMessage_eq_getLastD pubOf wifOf dec memo pubKey keys hv hp,
      decryptedMessage_eq_getLastD pubOf wifOf dec memo pubKey (bad :: keys) hv hp,
      scanSuccesses_cons_fail wifOf dec memo pubKey keys bad hbad]

/-- Witness for C4: the candidate "bad" fails to decode, yet the scan
returns normally and its result is unchanged by adding "bad" before or
after the good candidate. -/
theorem c4_scan_absorbs_candidate_failures_witness :
    (decryptedMessage (fun _ => some ())
        (fun s => if s = "bad" then none else some s)
        (fun _ k _ _ => if k = "k1" then some "one" else none)
        ⟨true, "from", "msg", "nonce", "to"⟩ ["k1"]).isSome = true ∧
    decryptedMessage (fun _ => some ())
        (fun s => if s = "bad" then none else some s)
        (fun _ k _ _ => if k = "k1" then some "one" else none)
        ⟨true, "from", "msg", "nonce", "to"⟩ (["k1"] ++ ["bad"])
      = decryptedMessage (fun _ => some ())
        (fun s => if s = "bad" then none else some s)
        (fun _ k _ _ => if k = "k1" then some "one" else none)
        ⟨true, "from", "msg", "nonce", "to"⟩ ["k1"] ∧
    decryptedMessage (fun _ => some ())
        (fun s => if s = "bad" then none else some s)
        (fun _ k _ _ => if k = "k1" then some "one" else none)
        ⟨true, "from", "msg", "nonce", "to"⟩ ("bad" :: ["k1"])
      = decryptedMessage (fun _ => some ())
        (fun s => if s = "bad" then none else some s)
        (fun _ k _ _ => if k = "k1" then some "one" else none)
        ⟨true, "from", "msg", "nonce", "to"⟩ ["k1"] :=
  c4_scan_absorbs_candidate_failures (fun _ => some ())
    (fun s => if s = "bad" then none else some s)
    (fun _ k _ _ => if k = "k1" then some "one" else none)
    ⟨true, "from", "msg", "nonce", "to"⟩ () ["k1"] "bad"
    rfl rfl (by decide)

/-- C5 counterexample: the claim says the empty string is returned exactly
in the no-success cases, but a candidate that successfully decrypts an
empty plaintext also makes the scanner return the empty string: here the
scan has one success, yet the result is `""`. -/
theorem c5_counterexample :
    decryptedMessage (fun _ => some ()) (fun s => some s)
      (fun _ _ _ _ => some "") ⟨true, "f", "m", "n", "t"⟩ ["k"] = some ""
    ∧ scanSuccesses (fun s => some (s : String)) (fun _ _ _ _ => some "")
        ⟨true, "f", "m", "n", "t"⟩ () ["k"] ≠ [] := by
  constructor
  · decide
  · decide

/-- C5 (amended): the scanner returns the empty string without raising in
the no-success cases: immediately when the envelope is invalid (for every
candidate list and even when the recipient key would not decode), and when
the candidate list (including the empty list) is exhausted with no
success; conversely, an empty-string result with a valid envelope means
either no candidate succeeded or the last successful plaintext was itself
the empty string. -/
theorem c5_scanner_empty_string {π κ : Type} (pubOf : String → Option κ)
    (wifOf : String → Option π) (dec : String → π → κ → String → Option String)
    (memo : TransactionMemo) (keys : List String) :
    (memo.valid = false → decryptedMessage pubOf wifOf dec memo keys = some "") ∧
    (∀ pubKey, memo.valid = true → pubOf memo.toKey = some pubKey →
      scanSuccesses wifOf dec memo pubKey keys = [] →
      decryptedMessage pubOf wifOf dec memo keys = some "") ∧
    (∀ pubKey, memo.valid = true → pubOf memo.toKey = some pubKey →
      decryptedMessage pubOf wifOf dec memo keys = some "" →
      scanSuccesses wifOf dec memo pubKey keys = [] ∨
        (scanSuccesses wifOf dec memo pubKey keys).getLastD "" = "") := by
  refine ⟨?_, ?_, ?_⟩
  · intro hv
    unfold decryptedMessage
    rw [hv]
    rfl
  · intro pubKey hv hp hnone
    rw [decryptedMessage_eq_getLastD pubOf wifOf dec memo pubKey keys hv hp, hnone]
    rfl
  · intro pubKey hv hp hempty
    rw [decryptedMessage_eq_getLastD pubOf wifOf dec memo pubKey keys hv hp] at hempty
    exact Or.inr (Option.some_injective _ hempty)

/-- Witness for C5 (amended): an invalid envelope yields the empty string
even though the recipient key cannot decode, and a valid envelope with an
exhausted, never-succeeding candidate list also yields the empty string. -/
theorem c5_scanner_empty_string_witness :
    decryptedMessage (fun _ => (none : Option Unit)) (fun _ => (none : Option Unit))
      (fun _ _ _ _ => none) ⟨false, "f", "m", "n", "t"⟩ ["x"] = some "" ∧
    decryptedMessage (fun _ => some ()) (fun s => some s)
      (fun _ _ _ _ => none) ⟨true, "f", "m", "n", "t"⟩ ["x", "y"] = some "" := by
  constructor
  · exact (c5_scanner_empty_string (fun _ => (none : Option Unit))
      (fun _ => (none : Option Unit)) (fun _ _ _ _ => none)
      ⟨false, "f", "m", "n", "t"⟩ ["x"]).1 rfl
  · exact (c5_scanner_empty_string (fun _ => some ()) (fun s => some s)
      (fun _ _ _ _ => none) ⟨true, "f", "m", "n", "t"⟩ ["x", "y"]).2.1 ()
      rfl rfl (by decide)

/-- C10: when the envelope is valid but the recipient public-key string does
not decode, the decoding exception escapes `decryptedMessage` (the result is
an exception, not the empty string), for every candidate list including the
empty one, because the single recipient decode happens before the loop and
outside the per-candidate error absorption. -/
theorem c10_recipient_decode_failure_propagates {π κ : Type}
    (pubOf : String → Option κ) (wifOf : String → Option π)
    (dec : String → π → κ → String → Option String)
    (memo : TransactionMemo) (keys : List String)
    (hv : memo.valid = true) (hp : pubOf memo.toKey = none) :
    decryptedMessage pubOf wifOf dec memo keys = none := by
  unfold decryptedMessage
  simp only [hv, hp, Bool.not_true, Bool.false_eq_true, if_false]

/-- Witness for C10: an undecodable recipient key makes the scan throw for
the empty candidate list and also for a list whose candidate would have
decrypted successfully. -/
theorem c10_recipient_decode_failure_propagates_witness :
    decryptedMessage (fun _ => (none : Option Unit)) (fun s => some s)
      (fun _ _ _ _ => some "yes") ⟨true, "f", "m", "n", "t"⟩ [] = none ∧
    decryptedMessage (fun _ => (none : Option Unit)) (fun s => some s)
      (fun _ _ _ _ => some "yes") ⟨true, "f", "m", "n", "t"⟩ ["k"] = none := by
  constructor
  · exact c10_recipient_decode_failure_propagates (fun _ => (none : Option Unit))
      (fun s => some s) (fun _ _ _ _ => some "yes")
      ⟨true, "f", "m", "n", "t"⟩ [] rfl rfl
  · exact c10_recipient_decode_failure_propagates (fun _ => (none : Option Unit))
      (fun s => some s) (fun _ _ _ _ => some "yes")
      ⟨true, "f", "m", "n", "t"⟩ ["k"] rfl rfl

/-! ## Discrete-log (El Gamal) key derivation (utils.ts, class Utils) -/

/-- Errors surfaced by the embedded `Utils` operations.
`wrongPrivateKey` embeds the `UtilsError.wrong_private_key` string thrown by
the source; `invalidInteger` embeds the untyped exception the external
big-integer library throws when its string argument does not parse. -/
inductive UtilsErr where
  | wrongPrivateKey
  | invalidInteger
  deriving DecidableEq

/-- Modular exponentiation by squaring, embedding `BigInteger.modPow` as
used by `Utils.elGamalPublic`. -/
def modPow (b e m : Nat) : Nat :=
  if h : e = 0 then 1 % m
  else if e % 2 = 1 then b % m * modPow (b * b % m) (e / 2) m % m
  else modPow (b * b % m) (e / 2) m
termination_by e
decreasing_by
  all_goals exact Nat.div_lt_self (Nat.pos_of_ne_zero h) one_lt_two

theorem modPow_eq (e : Nat) : ∀ b m : Nat, modPow b e m = b ^ e % m := by
  induction e using Nat.strong_induction_on with
  | _ e ih =>
    intro b m
    unfold modPow
    by_cases h : e = 0
    · subst h
      simp
    · rw [dif_neg h]
      have hlt : e / 2 < e := Nat.div_lt_self (Nat.pos_of_ne_zero h) one_lt_two
      have hpow : (b * b % m) ^ (e / 2) % m = b ^ (2 * (e / 2)) % m := by
        rw [← Nat.pow_mod, ← pow_two, ← pow_mul]
      by_cases hodd : e % 2 = 1
      · rw [if_pos hodd, ih (e / 2) hlt (b * b % m) m, hpow, ← Nat.mul_mod,
          ← pow_succ']
        have he : 2 * (e / 2) + 1 = e := by omega
        rw [he]
      · rw [if_neg hodd, ih (e / 2) hlt (b * b % m) m, hpow]
        have he : 2 * (e / 2) = e := by omega
        rw [he]

/-- The fixed generator used by `Utils.elGamalPublic`. -/
def elGamalGenerator : Nat := 3

/-- The fixed modulus constant of `Utils.elGamalPublic`, the concatenation
of the two string halves in the source. -/
def elGamalModulus : Nat :=
  11760620558671662461946567396662025495126946227619472274601251081547302009186313201119191293557856181195016058359990840577430081932807832465057884143546419

/-- Model of the external big-integer constructor `BigInteger(string)` used
by `Utils.elGamalPublic`: a non-empty all-digit string parses to its decimal
value, anything else throws the library's invalid-integer exception
(embedded as `none`). -/
def parseBigInt (s : String) : Option Nat :=
  if s.data.isEmpty then none
  else if s.data.all Char.isDigit then
    some (s.data.foldl (fun n c => 10 * n + (c.toNat - 48)) 0)
  else none

/-- Embedding of `Utils.elGamalPublic(elGamalPrivate)`: parse the scalar
string with the big-integer library (no try/catch around it in the source)
and return `generator.modPow(elgPriv, modulus)`. -/
def elGamalPublic (s : String) : Except UtilsErr Nat :=
  match parseBigInt s with
  | none => Except.error UtilsErr.invalidInteger
  | some n => Except.ok (modPow elGamalGenerator n elGamalModulus)

/-- Embedding of `Utils.privateKeyFromWif(pkWif)`: `KeyPrivate.fromWif` is
the external decoder (parameter `fromWif`, `none` when it throws); any
failure is caught and rethrown as `wrong_private_key`. -/
def privateKeyFromWif {π : Type} (fromWif : String → Option π)
    (pkWif : String) : Except UtilsErr π :=
  match fromWif pkWif with
  | none => Except.error UtilsErr.wrongPrivateKey
  | some k => Except.ok k

/-- Embedding of `Utils.elGamalPrivate(privateKeyWif)`: decode the WIF key
via `Utils.privateKeyFromWif`, hash the key scalar with SHA-512 and read the
digest as a hex big integer (the `hashScalar` parameter models the
hash-then-parse, which cannot fail on a decoded key); the whole body is in a
try/catch that rethrows any failure as `wrong_private_key`. -/
def elGamalPrivate {π : Type} (fromWif : String → Option π)
    (hashScalar : π → Nat) (wif : String) : Except UtilsErr Nat :=
  match privateKeyFromWif fromWif wif with
  | Except.error _ => Except.error UtilsErr.wrongPrivateKey
  | Except.ok k => Except.ok (hashScalar k)

/-- C6 counterexample: the fixed modulus constant in the source has 512
bits (155 decimal digits), not roughly 1300 bits: it lies strictly below
2 ^ 512 (and at or above 2 ^ 511). -/
theorem c6_counterexample :
    elGamalModulus < 2 ^ 512 ∧ 2 ^ 511 ≤ elGamalModulus := by
  constructor
  · norm_num [elGamalModulus]
  · norm_num [elGamalModulus]

/-- C6 (amended): for every valid scalar string (one the big-integer
library parses, with value n), elGamalPublic returns
generator ^ n mod modulus with generator = 3 and the single fixed 512-bit
(155-decimal-digit) modulus constant; the result is a natural number (hence
non-negative) strictly less than the modulus. -/
theorem c6_elGamalPublic_spec (s : String) (n : Nat)
    (h : parseBigInt s = some n) :
    elGamalPublic s = Except.ok (elGamalGenerator ^ n % elGamalModulus) ∧
    elGamalGenerator = 3 ∧
    modPow elGamalGenerator n elGamalModulus < elGamalModulus ∧
    2 ^ 511 ≤ elGamalModulus ∧ elGamalModulus < 2 ^ 512 := by
  refine ⟨?_, rfl, ?_, ?_, ?_⟩
  · simp only [elGamalPublic, h]
    rw [modPow_eq]
  · rw [modPow_eq]
    exact Nat.mod_lt _ (by norm_num [elGamalModulus])
  · norm_num [elGamalModulus]
  · norm_num [elGamalModulus]

/-- Witness for C6: the scalar string "5" parses and elGamalPublic of it is
3 ^ 5 reduced modulo the fixed constant. -/
theorem c6_elGamalPublic_spec_witness :
    parseBigInt "5" = some 5 ∧
    elGamalPublic "5" = Except.ok (elGamalGenerator ^ 5 % elGamalModulus) :=
  ⟨by decide, (c6_elGamalPublic_spec "5" 5 (by decide)).1⟩

/-- C7 counterexample: `Utils.elGamalPublic` has no try/catch, so the
malformed scalar string "x" surfaces the big-integer library's
invalid-integer exception, not the WrongPrivateKey error the claim
requires. -/
theorem c7_counterexample :
    elGamalPublic "x" = Except.error UtilsErr.invalidInteger ∧
    elGamalPublic "x" ≠ Except.error UtilsErr.wrongPrivateKey := by
  have h1 : elGamalPublic "x" = Except.error UtilsErr.invalidInteger := by
    rfl
  refine ⟨h1, ?_⟩
  rw [h1]
  intro h
  exact absurd (Except.error.inj h) (by decide)

/-- C7 (amended): elGamalPrivate fails with WrongPrivateKey for every
malformed WIF input and never silently returns key material there, while
elGamalPublic (whose body has no catch) fails on every malformed scalar
string with the underlying big-integer invalid-integer exception rather
than WrongPrivateKey. -/
theorem c7_elGamal_error_behavior {π : Type} (fromWif : String → Option π)
    (hashScalar : π → Nat) (wif s : String)
    (hw : fromWif wif = none) (hs : parseBigInt s = none) :
    elGamalPrivate fromWif hashScalar wif
      = Except.error UtilsErr.wrongPrivateKey ∧
    elGamalPublic s = Except.error UtilsErr.invalidInteger := by
  constructor
  · simp only [elGamalPrivate, privateKeyFromWif, hw]
  · simp only [elGamalPublic, hs]

/-- Witness for C7 (amended): a WIF string the decoder rejects yields
WrongPrivateKey from elGamalPrivate, and the malformed scalar "zz" yields
the invalid-integer error from elGamalPublic. -/
theorem c7_elGamal_error_behavior_witness :
    elGamalPrivate (fun _ => (none : Option Unit)) (fun _ => 0) "notakey"
      = Except.error UtilsErr.wrongPrivateKey ∧
    elGamalPublic "zz" = Except.error UtilsErr.invalidInteger :=
  c7_elGamal_error_behavior (fun _ => (none : Option Unit)) (fun _ => 0)
    "notakey" "zz" rfl (by decide)

/-! ## Shared-secret memo cipher (crypt.ts / model/utils.ts are not among
the sources at hand; every definition here is modelled from the spec) -/

/-- Modelled from the spec: public-key computation of the signing curve
(`KeyPublic.fromPrivateKey` in model/utils.ts, missing from the sources),
modelled as exponentiation of a generator g in a multiplicative group mod
p, the standard Diffie-Hellman presentation. -/
def pubFromPriv (p g priv : Nat) : Nat := g ^ priv % p

/-- Modelled from the spec: the elliptic-curve Diffie-Hellman shared secret
of `CryptoUtils` (crypt.ts, missing from the sources), combining the local
private key with the remote public key; modelled as exponentiation mod p. -/
def sharedSecret (p priv pub : Nat) : Nat := pub ^ priv % p

lemma sharedSecret_comm (p g a b : Nat) :
    sharedSecret p a (pubFromPriv p g b)
      = sharedSecret p b (pubFromPriv p g a) := by
  unfold sharedSecret pubFromPriv
  rw [← Nat.pow_mod, ← Nat.pow_mod, ← pow_mul, ← pow_mul, Nat.mul_comm]

/-- Modelled from the spec: symmetric key material derived by mixing the
shared secret with the caller-supplied nonce. -/
def memoKeyMaterial (secret nonce : Nat) : Nat := secret ^^^ nonce

/-- Modelled from the spec: the symmetric cipher keyed by the derived key
material, as a self-inverse keystream xor over the payload bytes. -/
def symXor (key : Nat) : Nat → List Nat → List Nat
  | _, [] => []
  | i, b :: rest => (b ^^^ ((key + i) % 256)) :: symXor key (i + 1) rest

lemma symXor_symXor (key : Nat) : ∀ (i : Nat) (l : List Nat),
    symXor key i (symXor key i l) = l := by
  intro i l
  induction l generalizing i with
  | nil => rfl
  | cons b rest ih =>
    simp only [symXor]
    rw [Nat.xor_assoc, Nat.xor_self, Nat.xor_zero, ih]

/-- Modelled from the spec: the short integrity checksum over the plaintext
that is prepended before symmetric encryption (the source uses the leading
bytes of a SHA-256 digest; modelled as a fixed 32-bit fold). -/
def checksum (m : List Nat) : Nat :=
  m.foldl (fun a b => (31 * a + b) % 4294967296) 0

/-- Modelled from the spec: `CryptoUtils.encryptWithChecksum`: derive the
shared secret from the sender private key and recipient public key, mix in
the nonce, and encrypt checksum-then-plaintext. -/
def encryptWithChecksum (p : Nat) (m : List Nat) (priv pub nonce : Nat) :
    List Nat :=
  symXor (memoKeyMaterial (sharedSecret p priv pub) nonce) 0 (checksum m :: m)

/-- Modelled from the spec: `CryptoUtils.decryptWithChecksum`: decrypt,
split off the leading checksum, recompute it over the recovered trailing
bytes, and fail (DecryptionFailed, embedded as `none`) on mismatch. -/
def decryptWithChecksum (p : Nat) (ct : List Nat) (priv pub nonce : Nat) :
    Option (List Nat) :=
  match symXor (memoKeyMaterial (sharedSecret p priv pub) nonce) 0 ct with
  | [] => none
  | c :: rest => if checksum rest = c then some rest else none

/-- C3: Diffie-Hellman shared-secret symmetry: for any two key pairs, the
shared secret computed from (privA, pubB) equals the one computed from
(privB, pubA), so sender and recipient derive identical key material. -/
theorem c3_dh_shared_secret_symmetry (p g privA privB : Nat) :
    sharedSecret p privA (pubFromPriv p g privB)
      = sharedSecret p privB (pubFromPriv p g privA) :=
  sharedSecret_comm p g privA privB

/-- C2: memo cipher round trip: encrypting any plaintext from A to B with
any nonce and decrypting with B's private key and A's public key (same
nonce) recovers the plaintext exactly. -/
theorem c2_memo_cipher_round_trip (p g nonce privA privB : Nat)
    (m : List Nat) :
    decryptWithChecksum p
      (encryptWithChecksum p m privA (pubFromPriv p g privB) nonce)
      privB (pubFromPriv p g privA) nonce = some m := by
  unfold decryptWithChecksum encryptWithChecksum
  rw [sharedSecret_comm p g privB privA, symXor_symXor]
  simp

/-! ## Brain-key normalization (utils.ts, Utils.normalize) -/

/-- The character class of the split regex `[\t\n\v\f\r ]` in
`Utils.normalize` (tab, newline, vertical tab, form feed, carriage return,
space). -/
def isSplitWs (c : Char) : Bool :=
  c = '\t' || c = '\n' || c = '\x0B' || c = '\x0C' || c = '\r' || c = ' '

/-- JavaScript whitespace as removed by `String.prototype.trim`: the
WhiteSpace and LineTerminator code points. -/
def isJsWs (c : Char) : Bool :=
  isSplitWs c || c = '\u00A0' || c = '\u1680' ||
    (0x2000 ≤ c.toNat && c.toNat ≤ 0x200A) || c = '\u2028' || c = '\u2029' ||
    c = '\u202F' || c = '\u205F' || c = '\u3000' || c = '\uFEFF'

lemma isJsWs_of_isSplitWs {c : Char} (h : isSplitWs c = true) :
    isJsWs c = true := by
  simp [isJsWs, h]

lemma not_isSplitWs_of_not_isJsWs {c : Char} (h : isJsWs c = false) :
    isSplitWs c = false := by
  cases hs : isSplitWs c with
  | false => rfl
  | true => rw [isJsWs_of_isSplitWs hs] at h; cases h

/-- Embedding of `brainKey.trim()` on the character list. -/
def jsTrim (l : List Char) : List Char :=
  ((l.dropWhile isJsWs).reverse.dropWhile isJsWs).reverse

/-- Embedding of `.split(regex).join(' ')` for a run regex over the
character class `sep`: each maximal run of `sep` characters becomes a
single space (also at the ends of the list).  The flag records whether the
previous character belonged to a run. -/
def collapseWith (sep : Char → Bool) : Bool → List Char → List Char
  | _, [] => []
  | prevSep, c :: cs =>
    if sep c then
      if prevSep then collapseWith sep true cs
      else ' ' :: collapseWith sep true cs
    else c :: collapseWith sep false cs

/-- Embedding of `Utils.normalize(brainKey)`: `trim()`, then
`toUpperCase()` (the JavaScript uppercasing builtin, applied per character,
is the parameter `up`), then `split(/[\t\n\v\f\r ]+/).join(' ')`. -/
def Utils.normalize (up : Char → Char) (s : String) : String :=
  String.mk (collapseWith isSplitWs false ((jsTrim s.data).map up))

lemma dropWhile_head?_not {α : Type} (p : α → Bool) :
    ∀ (l : List α) (c : α), (l.dropWhile p).head? = some c → p c = false := by
  intro l
  induction l with
  | nil => intro c h; simp [List.dropWhile] at h
  | cons a as ih =>
    intro c h
    rw [List.dropWhile_cons] at h
    by_cases hp : p a = true
    · rw [if_pos hp] at h
      exact ih c h
    · rw [if_neg hp] at h
      simp only [List.head?_cons, Option.some.injEq] at h
      subst h
      simpa using hp

lemma dropWhile_of_head?_not {α : Type} (p : α → Bool) (l : List α)
    (h : ∀ c, l.head? = some c → p c = false) : l.dropWhile p = l := by
  cases l with
  | nil => rfl
  | cons a as =>
    rw [List.dropWhile_cons, if_neg]
    rw [h a rfl]
    simp

lemma dropWhile_getLast? {α : Type} (p : α → Bool) :
    ∀ l : List α, l.dropWhile p ≠ [] →
      (l.dropWhile p).getLast? = l.getLast? := by
  intro l
  induction l with
  | nil => intro h; simp [List.dropWhile] at h
  | cons a as ih =>
    intro h
    rw [List.dropWhile_cons] at h ⊢
    by_cases hp : p a = true
    · rw [if_pos hp] at h ⊢
      rw [ih h]
      have hne : as ≠ [] := by
        intro he
        subst he
        simp [List.dropWhile] at h
      cases as with
      | nil => exact absurd rfl hne
      | cons b bs => rw [List.getLast?_cons_cons]
    · rw [if_neg hp]

lemma collapseWith_cons_not_sep (sep : Char → Bool) (flag : Bool)
    (c : Char) (cs : List Char) (h : sep c = false) :
    collapseWith sep flag (c :: cs) = c :: collapseWith sep false cs := by
  simp [collapseWith, h]

lemma collapseWith_cons_sep_true (sep : Char → Bool) (c : Char)
    (cs : List Char) (h : sep c = true) :
    collapseWith sep true (c :: cs) = collapseWith sep true cs := by
  simp [collapseWith, h]

lemma collapseWith_cons_sep_false (sep : Char → Bool) (c : Char)
    (cs : List Char) (h : sep c = true) :
    collapseWith sep false (c :: cs) = ' ' :: collapseWith sep true cs := by
  simp [collapseWith, h]

lemma collapseWith_true_head (sep : Char → Bool) :
    ∀ (cs : List Char) (c : Char),
      (collapseWith sep true cs).head? = some c → sep c = false := by
  intro cs
  induction cs with
  | nil => intro c h; simp [collapseWith] at h
  | cons a as ih =>
    intro c h
    by_cases ha : sep a = true
    · rw [collapseWith_cons_sep_true sep a as ha] at h
      exact ih c h
    · have ha2 : sep a = false := by simpa using ha
      rw [collapseWith_cons_not_sep sep true a as ha2] at h
      simp only [List.head?_cons, Option.some.injEq] at h
      subst h
      exact ha2

lemma collapseWith_true_eq_false (sep : Char → Bool) (l : List Char)
    (hl : ∀ c, l.head? = some c → sep c = false) :
    collapseWith sep true l = collapseWith sep false l := by
  cases l with
  | nil => rfl
  | cons a as =>
    have ha : sep a = false := hl a rfl
    rw [collapseWith_cons_not_sep sep true a as ha,
      collapseWith_cons_not_sep sep false a as ha]

lemma collapseWith_idem (sep : Char → Bool) (hsp : sep ' ' = true) :
    ∀ (l : List Char) (flag : Bool),
      collapseWith sep false (collapseWith sep flag l)
        = collapseWith sep flag l := by
  intro l
  induction l with
  | nil => intro flag; rfl
  | cons a as ih =>
    intro flag
    by_cases ha : sep a = true
    · cases flag with
      | true =>
        rw [collapseWith_cons_sep_true sep a as ha]
        exact ih true
      | false =>
        rw [collapseWith_cons_sep_false sep a as ha,
          collapseWith_cons_sep_false sep ' ' _ hsp,
          collapseWith_true_eq_false sep _ (collapseWith_true_head sep as),
          ih true]
    · have ha2 : sep a = false := by simpa using ha
      rw [collapseWith_cons_not_sep sep flag a as ha2,
        collapseWith_cons_not_sep sep false a _ ha2, ih false]

lemma collapseWith_getLast? (sep : Char → Bool) :
    ∀ (l : List Char) (flag : Bool) (c : Char),
      l.getLast? = some c → sep c = false →
      (collapseWith sep flag l).getLast? = some c := by
  intro l
  induction l with
  | nil => intro flag c h; simp at h
  | cons a as ih =>
    intro flag c hl hc
    cases as with
    | nil =>
      rw [List.getLast?_singleton] at hl
      injection hl with hl
      subst hl
      rw [collapseWith_cons_not_sep sep flag a [] hc]
      rfl
    | cons b bs =>
      rw [List.getLast?_cons_cons] at hl
      have hrec := ih flag c hl hc
      by_cases ha : sep a = true
      · cases flag with
        | true =>
          rw [collapseWith_cons_sep_true sep a _ ha]
          exact ih true c hl hc
        | false =>
          rw [collapseWith_cons_sep_false sep a _ ha]
          have h1 := ih true c hl hc
          cases hx : collapseWith sep true (b :: bs) with
          | nil => rw [hx] at h1; simp at h1
          | cons x xs =>
            rw [hx] at h1
            rw [List.getLast?_cons_cons]
            exact h1
      · have ha2 : sep a = false := by simpa using ha
        rw [collapseWith_cons_not_sep sep flag a _ ha2]
        have h1 := ih false c hl hc
        cases hx : collapseWith sep false (b :: bs) with
        | nil => rw [hx] at h1; simp at h1
        | cons x xs =>
          rw [hx] at h1
          rw [List.getLast?_cons_cons]
          exact h1

lemma mem_collapseWith (sep : Char → Bool) :
    ∀ (l : List Char) (flag : Bool) (x : Char),
      x ∈ collapseWith sep flag l → x ∈ l ∨ x = ' ' := by
  intro l
  induction l with
  | nil => intro flag x h; simp [collapseWith] at h
  | cons a as ih =>
    intro flag x h
    by_cases ha : sep a = true
    · cases flag with
      | true =>
        rw [collapseWith_cons_sep_true sep a as ha] at h
        rcases ih true x h with h1 | h1
        · exact Or.inl (List.mem_cons_of_mem a h1)
        · exact Or.inr h1
      | false =>
        rw [collapseWith_cons_sep_false sep a as ha] at h
        rcases List.mem_cons.mp h with h1 | h1
        · exact Or.inr h1
        · rcases ih true x h1 with h2 | h2
          · exact Or.inl (List.mem_cons_of_mem a h2)
          · exact Or.inr h2
    · have ha2 : sep a = false := by simpa using ha
      rw [collapseWith_cons_not_sep sep flag a as ha2] at h
      rcases List.mem_cons.mp h with h1 | h1
      · exact Or.inl (h1 ▸ List.mem_cons_self a as)
      · rcases ih false x h1 with h2 | h2
        · exact Or.inl (List.mem_cons_of_mem a h2)
        · exact Or.inr h2

lemma map_eq_self_of_mem {f : Char → Char} :
    ∀ l : List Char, (∀ c ∈ l, f c = c) → l.map f = l := by
  intro l
  induction l with
  | nil => intro _; rfl
  | cons a as ih =>
    intro h
    rw [List.map_cons, h a (List.mem_cons_self a as),
      ih (fun c hc => h c (List.mem_cons_of_mem a hc))]

lemma jsTrim_head?_not (l : List Char) :
    ∀ c, (jsTrim l).head? = some c → isJsWs c = false := by
  intro c h
  unfold jsTrim at h
  rw [List.head?_reverse] at h
  by_cases hx : (l.dropWhile isJsWs).reverse.dropWhile isJsWs = []
  · rw [hx] at h
    simp at h
  · rw [dropWhile_getLast? isJsWs _ hx, List.getLast?_reverse] at h
    exact dropWhile_head?_not isJsWs l c h

lemma jsTrim_getLast?_not (l : List Char) :
    ∀ c, (jsTrim l).getLast? = some c → isJsWs c = false := by
  intro c h
  unfold jsTrim at h
  rw [List.getLast?_reverse] at h
  exact dropWhile_head?_not isJsWs _ c h

lemma jsTrim_of_ends (l : List Char)
    (hh : ∀ c, l.head? = some c → isJsWs c = false)
    (hl : ∀ c, l.getLast? = some c → isJsWs c = false) : jsTrim l = l := by
  unfold jsTrim
  rw [dropWhile_of_head?_not isJsWs l hh]
  have hrev : ∀ c, l.reverse.head? = some c → isJsWs c = false := by
    intro c hc
    rw [List.head?_reverse] at hc
    exact hl c hc
  rw [dropWhile_of_head?_not isJsWs l.reverse hrev, List.reverse_reverse]

lemma collapseWith_head?_not_ws (u : List Char)
    (hu : ∀ c, u.head? = some c → isJsWs c = false) :
    ∀ c, (collapseWith isSplitWs false u).head? = some c → isJsWs c = false := by
  cases u with
  | nil => intro c h; simp [collapseWith] at h
  | cons a as =>
    have ha : isJsWs a = false := hu a rfl
    have ha2 : isSplitWs a = false := not_isSplitWs_of_not_isJsWs ha
    rw [collapseWith_cons_not_sep _ false a as ha2]
    intro c h
    simp only [List.head?_cons, Option.some.injEq] at h
    subst h
    exact ha

lemma collapseWith_getLast?_not_ws (u : List Char)
    (hu : ∀ c, u.getLast? = some c → isJsWs c = false) :
    ∀ c, (collapseWith isSplitWs false u).getLast? = some c →
      isJsWs c = false := by
  intro c h
  cases hu0 : u.getLast? with
  | none =>
    rw [List.getLast?_eq_none_iff] at hu0
    subst hu0
    simp [collapseWith] at h
  | some d =>
    have hd : isJsWs d = false := hu d hu0
    have hd2 : isSplitWs d = false := not_isSplitWs_of_not_isJsWs hd
    rw [collapseWith_getLast? isSplitWs u false d hu0 hd2] at h
    injection h with h
    subst h
    exact hd

lemma normalizeList_idem (up : Char → Char)
    (hup : ∀ c, up (up c) = up c)
    (hws : ∀ c, isJsWs (up c) = isJsWs c)
    (hsp : up ' ' = ' ') (l : List Char) :
    collapseWith isSplitWs false
        ((jsTrim (collapseWith isSplitWs false ((jsTrim l).map up))).map up)
      = collapseWith isSplitWs false ((jsTrim l).map up) := by
  have hu_head : ∀ c, ((jsTrim l).map up).head? = some c → isJsWs c = false := by
    intro c hc
    rw [List.head?_map] at hc
    cases htl : (jsTrim l).head? with
    | none => rw [htl] at hc; simp at hc
    | some d =>
      rw [htl] at hc
      simp only [Option.map_some'] at hc
      injection hc with hc
      subst hc
      rw [hws d]
      exact jsTrim_head?_not l d htl
  have hu_last : ∀ c, ((jsTrim l).map up).getLast? = some c →
      isJsWs c = false := by
    intro c hc
    rw [List.getLast?_map] at hc
    cases htl : (jsTrim l).getLast? with
    | none => rw [htl] at hc; simp at hc
    | some d =>
      rw [htl] at hc
      simp only [Option.map_some'] at hc
      injection hc with hc
      subst hc
      rw [hws d]
      exact jsTrim_getLast?_not l d htl
  have htrim : jsTrim (collapseWith isSplitWs false ((jsTrim l).map up))
      = collapseWith isSplitWs false ((jsTrim l).map up) :=
    jsTrim_of_ends _ (collapseWith_head?_not_ws _ hu_head)
      (collapseWith_getLast?_not_ws _ hu_last)
  rw [htrim]
  have hmap : (collapseWith isSplitWs false ((jsTrim l).map up)).map up
      = collapseWith isSplitWs false ((jsTrim l).map up) := by
    apply map_eq_self_of_mem
    intro c hc
    rcases mem_collapseWith isSplitWs _ false c hc with h1 | h1
    · rcases List.mem_map.mp h1 with ⟨d, _, hd⟩
      subst hd
      exact hup d
    · rw [h1]
      exact hsp
  rw [hmap]
  exact collapseWith_idem isSplitWs (by decide) _ false

/-- The transformation C8 describes, written from the claim's own words:
trim both ends, upper-case, collapse every internal run of tab, newline,
space, carriage return and form feed (but not vertical tab) to a single
space. -/
def isClaimSep (c : Char) : Bool :=
  c = '\t' || c = '\n' || c = ' ' || c = '\r' || c = '\x0C'

/-- The claim's transformation assembled in the same order as the source:
trim, upper-case, collapse the claim's five-character class. -/
def normalizeAsClaimed (up : Char → Char) (s : String) : String :=
  String.mk (collapseWith isClaimSep false ((jsTrim s.data).map up))

/-- The amended description: identical to the claim's wording except that
the collapsed whitespace class also contains the vertical tab, matching the
source regex `[\t\n\v\f\r ]`. -/
def normalizeAsAmended (up : Char → Char) (s : String) : String :=
  String.mk (collapseWith
    (fun c =>
      c = '\t' || c = '\n' || c = '\x0B' || c = '\x0C' || c = '\r' || c = ' ')
    false ((jsTrim s.data).map up))

/-- C8 counterexample: on a string with an internal vertical tab the source
function collapses the run to a space (the split regex contains `\v`),
while the transformation the claim describes leaves the vertical tab in
place, so the claimed equality fails at this input. -/
theorem c8_counterexample :
    Utils.normalize id "A\x0BB" = "A B" ∧
    normalizeAsClaimed id "A\x0BB" = "A\x0BB" ∧
    Utils.normalize id "A\x0BB" ≠ normalizeAsClaimed id "A\x0BB" := by
  refine ⟨?_, ?_, ?_⟩ <;> decide

/-- C8 (amended): for a per-character uppercasing that is idempotent,
preserves the whitespace class and fixes the space character (as the
JavaScript builtin does), Utils.normalize is idempotent, and it equals the
claim's transformation with the vertical tab added to the collapsed
whitespace class: trim both ends, upper-case, collapse every run of tab,
newline, vertical tab, form feed, carriage return and space to a single
space. -/
theorem c8_normalize_idem_and_described (up : Char → Char)
    (hup : ∀ c, up (up c) = up c)
    (hws : ∀ c, isJsWs (up c) = isJsWs c)
    (hsp : up ' ' = ' ') (s : String) :
    Utils.normalize up (Utils.normalize up s) = Utils.normalize up s ∧
    Utils.normalize up s = normalizeAsAmended up s :=
  ⟨congrArg String.mk (normalizeList_idem up hup hws hsp s.data), rfl⟩

/-- Witness for C8 (amended): with the identity uppercasing the hypotheses
hold definitionally and normalization of a doubly-spaced, padded string is
idempotent and matches the amended description. -/
theorem c8_normalize_idem_and_described_witness :
    Utils.normalize id (Utils.normalize id " A  B ") = Utils.normalize id " A  B " ∧
    Utils.normalize id " A  B " = normalizeAsAmended id " A  B " :=
  c8_normalize_idem_and_described id (fun _ => rfl) (fun _ => rfl) rfl " A  B "

/-! ## Key generation from a brain-key phrase (utils.ts, Utils.generateKeys) -/

/-- Embedding of `Utils.generateKeys(fromBrainKey)`: normalize the phrase,
then `KeyPrivate.fromBrainKey(normalizedBk)` (the external derivation is
the parameter `fromBrainKey`; model/utils.ts is not among the sources at
hand and per the spec the omitted sequence argument defaults to 0), then
`KeyPublic.fromPrivateKey(pkey)` (parameter `fromPrivateKey`). -/
def generateKeys {π κ : Type} (up : Char → Char)
    (fromBrainKey : String → Nat → π) (fromPrivateKey : π → κ)
    (phrase : String) : π × κ :=
  let normalizedBk := Utils.normalize up phrase
  let pkey := fromBrainKey normalizedBk 0
  (pkey, fromPrivateKey pkey)

/-- Embedding of `Utils.derivePrivateKey(brainKey, sequence)`:
`KeyPrivate.fromBrainKey(brainKey, sequence)` with the external derivation
as a parameter. -/
def derivePrivateKey {π : Type} (fromBrainKey : String → Nat → π)
    (brainKey : String) (sequence : Nat) : π :=
  fromBrainKey brainKey sequence

/-- C9: generateKeys is sequence-0 derivation on the normalized phrase
followed by public-key computation: the private half is the brain-key
derivation of normalize(phrase) at sequence 0, and the public half is
recomputed from that private key, never supplied independently. -/
theorem c9_generateKeys_spec {π κ : Type} (up : Char → Char)
    (fromBrainKey : String → Nat → π) (fromPrivateKey : π → κ)
    (phrase : String) :
    (generateKeys up fromBrainKey fromPrivateKey phrase).1
      = derivePrivateKey fromBrainKey (Utils.normalize up phrase) 0 ∧
    (generateKeys up fromBrainKey fromPrivateKey phrase).2
      = fromPrivateKey (generateKeys up fromBrainKey fromPrivateKey phrase).1 :=
  ⟨rfl, rfl⟩
